import Mathlib

/-!
Verification development for the file-automation repository.

Part A models `src/utils/file_utils.py` (`FileOperations.get_unique_filename`)
and `src/services/file_organizer.py` (`FileOrganizer.organize_directory`).
Part B models `src/services/data_cleaner.py` (`DataCleaner.clean_csv` and its
helper steps, with the pandas operations it calls embedded from their
documented semantics).

Filesystem paths are modelled as (directory, filename) pairs; a directory
snapshot is the list of existing files.  Python strings are modelled by
Lean `String`, with order/case/strip operations re-implemented over the
character list so that they compute by code points, as Python's do.
-/

namespace FileAutomation

/-! ### Python `pathlib` filename splitting

`Path.stem` / `Path.suffix`: with `i` the index of the last `'.'` in the
final component, the suffix is `name[i:]` when `0 < i < len(name) - 1`,
otherwise empty; the stem is the rest. -/

/-- Index of the last occurrence of `'.'` in a character list, if any. -/
def lastDotIdx : List Char → Option Nat
  | [] => none
  | c :: rest =>
    match lastDotIdx rest with
    | some i => some (i + 1)
    | none => if c = '.' then some 0 else none

/-- Split a filename into (stem, suffix) following `pathlib.PurePath`. -/
def splitName (name : String) : String × String :=
  let cs := name.toList
  match lastDotIdx cs with
  | some i =>
      if 0 < i ∧ i < cs.length - 1 then (String.mk (cs.take i), String.mk (cs.drop i))
      else (name, "")
  | none => (name, "")

def pathStem (name : String) : String := (splitName name).1

def pathSuffix (name : String) : String := (splitName name).2

/-! ### Filesystem model -/

/-- A file path: the directory it sits in plus its final name component. -/
structure FsPath where
  dir : String
  name : String
deriving DecidableEq

/-- Existence check against a directory snapshot (`Path.exists()`). -/
def pexists (fs : List FsPath) (p : FsPath) : Bool := decide (p ∈ fs)

/-! ### `FileOperations.get_unique_filename` (src/utils/file_utils.py:64-89) -/

/-- The candidate name `f"{stem}_{i}{suffix}"`. -/
def candName (stem ext : String) (i : Nat) : String :=
  stem ++ "_" ++ toString i ++ ext

/-- The last-resort name `f"{stem}_final{suffix}"`. -/
def finalName (stem ext : String) : String := stem ++ "_final" ++ ext

/-- The `for i in range(1, max_suffix + 1)` loop: `k` candidates remain to be
tested, the next one is numbered `i`; falls through to the final name. -/
def searchSuffix (fs : List FsPath) (dir stem ext : String) : Nat → Nat → FsPath
  | 0, _ => ⟨dir, finalName stem ext⟩
  | k + 1, i =>
      let cand : FsPath := ⟨dir, candName stem ext i⟩
      if pexists fs cand then searchSuffix fs dir stem ext k (i + 1) else cand

/-- `FileOperations.get_unique_filename(directory, filename, max_suffix)`. -/
def get_unique_filename (fs : List FsPath) (dir filename : String)
    (maxSuffix : Nat) : FsPath :=
  let base : FsPath := ⟨dir, filename⟩
  if pexists fs base then
    searchSuffix fs dir (pathStem filename) (pathSuffix filename) maxSuffix 1
  else base

/-! ### Python string helpers used by the organizer

`str.lower()` restricted to ASCII letters, which is all the configured
extensions contain; re-implemented over the character list so it computes. -/

def lowerChar (c : Char) : Char :=
  if 65 ≤ c.toNat ∧ c.toNat ≤ 90 then Char.ofNat (c.toNat + 32) else c

def pyLower (s : String) : String := String.mk (s.toList.map lowerChar)

/-! ### `FileOrganizer` (src/services/file_organizer.py)

The filesystem is a list of existing files plus a list of existing
directories.  `shutil.move` is modelled as always succeeding (the claims
concern the success path); it removes the source path and adds the
destination, overwriting silently when the destination already exists. -/

/-- One successful move performed by `organize_directory`, recording whether
the resolved destination already existed when it was checked. -/
structure MoveEvent where
  src : FsPath
  dst : FsPath
  destExisted : Bool
deriving DecidableEq

/-- Organizer state: the filesystem, plus the statistics dictionary and the
moves performed so far (`processed_files` is recoverable as the move
sources). -/
structure OrganizeState where
  files : List FsPath
  dirs : List String
  stats : List (String × Nat)
  moves : List MoveEvent
deriving DecidableEq

/-- Association-list lookup for the extension map. -/
def lookupCat : List (String × String) → String → Option String
  | [], _ => none
  | (e, c) :: rest, q => if e = q then some c else lookupCat rest q

/-- `FileOrganizer._get_file_category`: lower-cased suffix looked up in the
extension map, defaulting to `"other"`. -/
def getFileCategory (extMap : List (String × String)) (name : String) : String :=
  match lookupCat extMap (pyLower (pathSuffix name)) with
  | some c => c
  | none => "other"

/-- Add a path to the snapshot unless already present (set semantics). -/
def fsInsert (fs : List FsPath) (p : FsPath) : List FsPath :=
  if p ∈ fs then fs else fs ++ [p]

/-- Remove one occurrence of a path (the moved source). -/
def fsErase : List FsPath → FsPath → List FsPath
  | [], _ => []
  | q :: rest, p => if q = p then rest else q :: fsErase rest p

/-- `ensure_directory`. -/
def insertDir (ds : List String) (d : String) : List String :=
  if d ∈ ds then ds else ds ++ [d]

/-- `stats[category] = stats.get(category, 0) + 1` over an insertion-ordered
dictionary. -/
def bumpStat : List (String × Nat) → String → List (String × Nat)
  | [], c => [(c, 1)]
  | (k, n) :: rest, c =>
      if k = c then (k, n + 1) :: rest else (k, n) :: bumpStat rest c

/-- The body of the `for file_path in files` loop of `organize_directory`. -/
def organizeStep (extMap : List (String × String)) (maxSuffix : Nat)
    (d : String) (st : OrganizeState) (f : FsPath) : OrganizeState :=
  if f ∈ st.moves.map MoveEvent.src then st
  else
    let category := getFileCategory extMap f.name
    if category = "other" then st
    else
      let targetDir := d ++ "/" ++ category
      let dirs1 := insertDir st.dirs targetDir
      let target := get_unique_filename st.files targetDir f.name maxSuffix
      { files := fsInsert (fsErase st.files f) target
        dirs := dirs1
        stats := bumpStat st.stats category
        moves := st.moves ++ [⟨f, target, pexists st.files target⟩] }

/-- `FileOrganizer.organize_directory(directory)`: precondition check, then a
fold of the loop body over the non-recursive listing of `d`. -/
def organize_directory (extMap : List (String × String)) (maxSuffix : Nat)
    (fs : List FsPath) (dirs : List String) (d : String) : OrganizeState :=
  if d ∈ dirs then
    (fs.filter (fun f => decide (f.dir = d))).foldl
      (organizeStep extMap maxSuffix d) ⟨fs, dirs, [], []⟩
  else ⟨fs, dirs, [], []⟩

/-- The invariant carried through the organize loop: `"other"` files of the
original snapshot stay in place, every recorded move has its source in `d`,
its destination in the right category subdirectory and still existing, and —
as long as no destination pre-existed — destinations are pairwise distinct. -/
def OrgInv (extMap : List (String × String)) (d : String) (fs0 : List FsPath)
    (st : OrganizeState) : Prop :=
  (∀ f ∈ fs0, f.dir = d → getFileCategory extMap f.name = "other" →
    f ∈ st.files) ∧
  (∀ e ∈ st.moves, e.src.dir = d ∧
    e.dst.dir = d ++ "/" ++ getFileCategory extMap e.src.name ∧
    e.dst ∈ st.files) ∧
  ((∀ e ∈ st.moves, e.destExisted = false) →
    (st.moves.map MoveEvent.dst).Nodup)

/-! ### Table model (`DataCleaner`, src/services/data_cleaner.py)

A table is a list of column kinds (pandas dtypes: numeric or object/text)
plus row-major cells.  A cell is `none` for a missing value (NaN/None) —
pandas treats missing markers as equal to each other in `duplicated`, which
the `DecidableEq` on cells reflects.  Numbers are modelled as rationals. -/

inductive Value where
  | num (q : ℚ)
  | str (s : String)
deriving DecidableEq

abbrev Cell := Option Value

abbrev Row := List Cell

inductive ColKind where
  | numeric
  | text
deriving DecidableEq

structure Table where
  kinds : List ColKind
  rows : List Row
deriving DecidableEq

/-- The statistics dictionary built by `clean_csv`. -/
structure CleanStats where
  initial_rows : Nat
  initial_columns : Nat
  missing_values_found : Nat
  duplicate_rows_found : Nat
  final_rows : Nat
  final_columns : Nat
  rows_removed : Nat
deriving DecidableEq

/-- A cell value is consistent with its column's dtype. -/
def cellOk (kind : ColKind) (c : Cell) : Bool :=
  match kind, c with
  | _, none => true
  | ColKind.numeric, some (Value.num _) => true
  | ColKind.text, some (Value.str _) => true
  | _, _ => false

def rowOk (kinds : List ColKind) (r : Row) : Bool :=
  decide (r.length = kinds.length) &&
    (r.zip kinds).all (fun p => cellOk p.2 p.1)

/-- Well-formed table: rectangular, cells matching their column dtype. -/
def tableOk (t : Table) : Bool := t.rows.all (rowOk t.kinds)

/-! ### Duplicates (`df.duplicated()`, `df.drop_duplicates()`) -/

/-- `df.duplicated().sum()`: rows equal to some earlier row. -/
def dupAux (seen : List Row) : List Row → Nat
  | [] => 0
  | r :: rs => (if r ∈ seen then 1 else 0) + dupAux (r :: seen) rs

def duplicatedCount (rows : List Row) : Nat := dupAux [] rows

/-- `df.drop_duplicates()`: keep the first occurrence of each row. -/
def ddAux (seen : List Row) : List Row → List Row
  | [] => []
  | r :: rs => if r ∈ seen then ddAux (r :: seen) rs else r :: ddAux (r :: seen) rs

def dropDuplicates (rows : List Row) : List Row := ddAux [] rows

/-- `DataCleaner._remove_duplicates` (the `duplicates > 0` guard returns an
identical frame in both branches). -/
def remove_duplicates (t : Table) : Table := ⟨t.kinds, dropDuplicates t.rows⟩

/-! ### Missing values (`df.isnull()`, `Series.median`, `Series.mode`) -/

def countMissingRow (r : Row) : Nat := r.countP (fun c => decide (c = none))

/-- `df.isnull().sum().sum()`. -/
def countMissing (rows : List Row) : Nat := (rows.map countMissingRow).sum

/-- Column `j` of a row-major table (`df[column]`). -/
def colCells (rows : List Row) (j : Nat) : List Cell :=
  rows.map (fun r => r.getD j none)

/-- The non-missing numeric entries of a column (pandas skips NaN). -/
def presentNums (cells : List Cell) : List ℚ :=
  cells.filterMap (fun c =>
    match c with
    | some (Value.num q) => some q
    | _ => none)

/-- The non-missing string entries of a column (`dropna=True`). -/
def presentStrs (cells : List Cell) : List String :=
  cells.filterMap (fun c =>
    match c with
    | some (Value.str s) => some s
    | _ => none)

/-- `Series.median()`: sort the present values; odd count takes the middle,
even count averages the two middle values; empty gives NaN (`none`). -/
def median (xs : List ℚ) : Option ℚ :=
  let s := List.insertionSort (· ≤ ·) xs
  if xs.length = 0 then none
  else if xs.length % 2 = 1 then some (s.getD (xs.length / 2) 0)
  else some ((s.getD (xs.length / 2 - 1) 0 + s.getD (xs.length / 2) 0) / 2)

/-- Python string `<`: lexicographic comparison by code points. -/
def strLtB : List Char → List Char → Bool
  | [], [] => false
  | [], _ :: _ => true
  | _ :: _, [] => false
  | a :: as, b :: bs =>
      if a.toNat < b.toNat then true
      else if b.toNat < a.toNat then false
      else strLtB as bs

def pyStrLt (a b : String) : Bool := strLtB a.toList b.toList

/-- Number of occurrences of `v` in `xs`. -/
def occ (xs : List String) (v : String) : Nat :=
  xs.countP (fun x => decide (x = v))

def pickBetter (xs : List String) (acc : Option String) (v : String) :
    Option String :=
  match acc with
  | none => some v
  | some m =>
      if occ xs m < occ xs v ∨ (occ xs v = occ xs m ∧ pyStrLt v m = true) then
        some v
      else some m

/-- `Series.mode()[0]`: pandas returns the most frequent values sorted in
ascending order, and the code takes the first — i.e. the smallest value (in
Python string order) among those of maximal count; `none` when the series has
no present values. -/
def modeHead (xs : List String) : Option String := xs.foldl (pickBetter xs) none

/-- The value `fillna` would receive for one column of
`_handle_missing_values`, or `none` when the column has no missing entry or
no usable fill value (all-NaN numeric column: `fillna(NaN)` is a no-op). -/
def fillValueFor (kind : ColKind) (cells : List Cell) : Option Value :=
  if none ∈ cells then
    match kind with
    | ColKind.numeric => (median (presentNums cells)).map Value.num
    | ColKind.text =>
        some (Value.str ((modeHead (presentStrs cells)).getD "Unknown"))
  else none

/-- `fillna`: replace a missing cell by the fill value, keep present cells. -/
def fillCell (fv : Option Value) (c : Cell) : Cell :=
  match c with
  | none => fv
  | some v => some v

def mapWithIndexFrom {α β : Type} (f : Nat → α → β) : Nat → List α → List β
  | _, [] => []
  | k, a :: as => f k a :: mapWithIndexFrom f (k + 1) as

def mapWithIndex {α β : Type} (f : Nat → α → β) (l : List α) : List β :=
  mapWithIndexFrom f 0 l

/-- `DataCleaner._handle_missing_values`: if the frame has no missing value
return it unchanged; otherwise fill each column having a missing entry with
its median (numeric dtype) or mode/`"Unknown"` (object dtype).  Each column's
fill value depends only on that column, so the per-column loop is modelled by
computing all fill values against the input frame. -/
def handle_missing_values (t : Table) : Table :=
  if countMissing t.rows = 0 then t
  else
    ⟨t.kinds,
     t.rows.map (fun r =>
       mapWithIndex (fun j c =>
         fillCell (fillValueFor (t.kinds.getD j ColKind.text)
           (colCells t.rows j)) c) r)⟩

/-! ### Text normalization (`_standardize_data_types`) -/

/-- Python `str.strip()` whitespace (ASCII portion). -/
def isPySpace (c : Char) : Bool :=
  c.toNat = 32 || (9 ≤ c.toNat && c.toNat ≤ 13)

/-- Python `str.strip()`. -/
def pyStrip (s : String) : String :=
  String.mk (((s.toList.dropWhile isPySpace).reverse.dropWhile isPySpace).reverse)

/-- pandas `Series.str.strip()` on an object column: strings are stripped,
non-string entries (including NaN) become NaN. -/
def stripValue : Value → Cell
  | Value.str s => some (Value.str (pyStrip s))
  | Value.num _ => none

/-- `DataCleaner._standardize_data_types`: strip every cell of every
object-dtype column. -/
def standardize_data_types (t : Table) : Table :=
  ⟨t.kinds,
   t.rows.map (fun r =>
     mapWithIndex (fun j c =>
       match t.kinds.getD j ColKind.numeric with
       | ColKind.text =>
           match c with
           | none => none
           | some v => stripValue v
       | ColKind.numeric => c) r)⟩

/-- The transformation pipeline of `clean_csv` (lines 54-56). -/
def cleanTable (t : Table) : Table :=
  standardize_data_types (handle_missing_values (remove_duplicates t))

/-- The statistics record built by `clean_csv` (lines 47-60). -/
def cleanStats (t : Table) : CleanStats :=
  ⟨t.rows.length, t.kinds.length, countMissing t.rows,
   duplicatedCount t.rows, (cleanTable t).rows.length,
   (cleanTable t).kinds.length,
   t.rows.length - (cleanTable t).rows.length⟩

/-- `DataCleaner.clean_csv`: a missing or non-file input path yields the
empty dictionary (modelled as `none`) and no output is written; otherwise
the cleaned table and the populated statistics are returned. -/
def clean_csv (input : Option Table) : Option (Table × CleanStats) :=
  match input with
  | none => none
  | some t => some (cleanTable t, cleanStats t)

/-! ### Spec-side definitions, for refinement comparison only -/

/-- Modelled from the spec's words (C4): "remove all but the first occurrence
of each distinct row, preserving the relative order of kept rows". -/
def specKeepFirstOccurrences : List Row → List Row
  | [] => []
  | r :: rs =>
      r :: specKeepFirstOccurrences (rs.filter (fun x => decide (x ≠ r)))
termination_by l => l.length
decreasing_by
  simp only [List.length_cons]
  exact Nat.lt_succ_of_le (List.length_filter_le _ _)

/-- Modelled from the spec's words (C2): the mode of the present values with
ties broken in favor of the first-encountered value among the tied set. -/
def specModeFirstEncountered (xs : List String) : Option String :=
  xs.foldl (fun acc v =>
    match acc with
    | none => some v
    | some m => if occ xs m < occ xs v then some v else some m) none

lemma searchSuffix_eq_cand (fs : List FsPath) (dir stem ext : String) :
    ∀ k i j, i ≤ j → j < i + k →
      pexists fs ⟨dir, candName stem ext j⟩ = false →
      (∀ l, i ≤ l → l < j → pexists fs ⟨dir, candName stem ext l⟩ = true) →
      searchSuffix fs dir stem ext k i = ⟨dir, candName stem ext j⟩ := by
  intro k
  induction k with
  | zero => intro i j hij hlt _ _; omega
  | succ k ih =>
      intro i j hij hlt hj hall
      by_cases hcase : i = j
      · subst hcase
        simp [searchSuffix, hj]
      · have hne : i < j := lt_of_le_of_ne hij hcase
        have hi : pexists fs ⟨dir, candName stem ext i⟩ = true :=
          hall i le_rfl hne
        simp only [searchSuffix, hi, if_pos]
        exact ih (i + 1) j hne (by omega) hj
          (fun l hl1 hl2 => hall l (by omega) hl2)

lemma searchSuffix_eq_final (fs : List FsPath) (dir stem ext : String) :
    ∀ k i, (∀ j, i ≤ j → j < i + k → pexists fs ⟨dir, candName stem ext j⟩ = true) →
      searchSuffix fs dir stem ext k i = ⟨dir, finalName stem ext⟩ := by
  intro k
  induction k with
  | zero => intro i _; rfl
  | succ k ih =>
      intro i hall
      have hi : pexists fs ⟨dir, candName stem ext i⟩ = true :=
        hall i le_rfl (by omega)
      simp only [searchSuffix, hi, if_pos]
      exact ih (i + 1) (fun j h1 h2 => hall j (by omega) (by omega))

lemma searchSuffix_final_or_fresh (fs : List FsPath) (dir stem ext : String) :
    ∀ k i, (searchSuffix fs dir stem ext k i).name = finalName stem ext ∨
      pexists fs (searchSuffix fs dir stem ext k i) = false := by
  intro k
  induction k with
  | zero => intro i; left; rfl
  | succ k ih =>
      intro i
      by_cases h : pexists fs ⟨dir, candName stem ext i⟩ = true
      · simpa [searchSuffix, h] using ih (i + 1)
      · simp only [Bool.not_eq_true] at h
        right
        simp [searchSuffix, h]

lemma get_unique_dir (fs : List FsPath) (dir filename : String) (maxSuffix : Nat) :
    (get_unique_filename fs dir filename maxSuffix).dir = dir := by
  unfold get_unique_filename
  by_cases h : pexists fs ⟨dir, filename⟩ = true
  · simp only [h, if_pos]
    generalize 1 = i
    induction maxSuffix generalizing i with
    | zero => rfl
    | succ k ih =>
        by_cases hc : pexists fs ⟨dir, candName (pathStem filename) (pathSuffix filename) i⟩ = true
        · simp [searchSuffix, hc, ih]
        · simp only [Bool.not_eq_true] at hc
          simp [searchSuffix, hc]
  · simp only [Bool.not_eq_true] at h
    simp [h]

/-- C1: Unique Path Resolver.  For every directory snapshot `fs`, directory,
desired filename and bound: (1) when `directory/filename` does not exist it is
returned unchanged; (2) otherwise the result is `directory/{stem}_{i}{ext}` for
the smallest `i` in `1..maxAttempts` whose path does not exist; (3) when all
those candidates exist the result is `directory/{stem}_final{ext}`; and (4) in
particular, when `stem.ext` and `stem_1.ext … stem_n.ext` all exist and no
other candidate with index at most `maxAttempts` does, the result is
`stem_(n+1).ext` if `n+1 ≤ maxAttempts`, else `stem_final.ext`. -/
theorem C1_unique_path_resolver (fs : List FsPath) (dir fn : String)
    (maxAttempts : Nat) :
    (pexists fs ⟨dir, fn⟩ = false →
      get_unique_filename fs dir fn maxAttempts = ⟨dir, fn⟩) ∧
    (pexists fs ⟨dir, fn⟩ = true →
      ∀ i, 1 ≤ i → i ≤ maxAttempts →
        pexists fs ⟨dir, candName (pathStem fn) (pathSuffix fn) i⟩ = false →
        (∀ j, j < i → 1 ≤ j →
          pexists fs ⟨dir, candName (pathStem fn) (pathSuffix fn) j⟩ = true) →
        get_unique_filename fs dir fn maxAttempts =
          ⟨dir, candName (pathStem fn) (pathSuffix fn) i⟩) ∧
    (pexists fs ⟨dir, fn⟩ = true →
      (∀ i, i ≤ maxAttempts → 1 ≤ i →
        pexists fs ⟨dir, candName (pathStem fn) (pathSuffix fn) i⟩ = true) →
      get_unique_filename fs dir fn maxAttempts =
        ⟨dir, finalName (pathStem fn) (pathSuffix fn)⟩) ∧
    (∀ n, pexists fs ⟨dir, fn⟩ = true →
      (∀ j, j ≤ n → 1 ≤ j →
        pexists fs ⟨dir, candName (pathStem fn) (pathSuffix fn) j⟩ = true) →
      (∀ j, j ≤ maxAttempts → n < j →
        pexists fs ⟨dir, candName (pathStem fn) (pathSuffix fn) j⟩ = false) →
      (n + 1 ≤ maxAttempts →
        get_unique_filename fs dir fn maxAttempts =
          ⟨dir, candName (pathStem fn) (pathSuffix fn) (n + 1)⟩) ∧
      (maxAttempts ≤ n →
        get_unique_filename fs dir fn maxAttempts =
          ⟨dir, finalName (pathStem fn) (pathSuffix fn)⟩)) := by
  refine ⟨fun h => ?_, fun h i h1 h2 hfree hprev => ?_, fun h hall => ?_,
    fun n h hlow hhigh => ⟨fun hle => ?_, fun hge => ?_⟩⟩
  · simp [get_unique_filename, h]
  · simp only [get_unique_filename, h, if_pos]
    exact searchSuffix_eq_cand fs dir (pathStem fn) (pathSuffix fn)
      maxAttempts 1 i h1 (by omega) hfree (fun l hl1 hl2 => hprev l hl2 hl1)
  · simp only [get_unique_filename, h, if_pos]
    exact searchSuffix_eq_final fs dir (pathStem fn) (pathSuffix fn)
      maxAttempts 1 (fun j h1 h2 => hall j (by omega) h1)
  · simp only [get_unique_filename, h, if_pos]
    exact searchSuffix_eq_cand fs dir (pathStem fn) (pathSuffix fn)
      maxAttempts 1 (n + 1) (by omega) (by omega)
      (hhigh (n + 1) hle (by omega))
      (fun l hl1 hl2 => hlow l (by omega) hl1)
  · simp only [get_unique_filename, h, if_pos]
    exact searchSuffix_eq_final fs dir (pathStem fn) (pathSuffix fn)
      maxAttempts 1 (fun j h1 h2 => hlow j (by omega) h1)

/-- Witness for C1: with `d/a.txt` and `d/a_1.txt` existing and candidates
up to 5 otherwise free, the resolver picks `a_2.txt`. -/
theorem C1_unique_path_resolver_witness :
    get_unique_filename [⟨"d", "a.txt"⟩, ⟨"d", "a_1.txt"⟩] "d" "a.txt" 5 =
      ⟨"d", "a_2.txt"⟩ := by
  have h := ((C1_unique_path_resolver [⟨"d", "a.txt"⟩, ⟨"d", "a_1.txt"⟩]
      "d" "a.txt" 5).2.2.2 1 (by decide) (by decide) (by decide)).1 (by decide)
  rw [h]
  decide

/-- C5 counterexample: when `a.txt`, `a_1.txt` and `a_final.txt` all exist and
`max_attempts = 1`, the resolver returns `a_final.txt`, a path that exists at
the time of the checks — refuting the claim that the returned path never
exists. -/
theorem C5_counterexample :
    pexists [⟨"d", "a.txt"⟩, ⟨"d", "a_1.txt"⟩, ⟨"d", "a_final.txt"⟩]
      (get_unique_filename
        [⟨"d", "a.txt"⟩, ⟨"d", "a_1.txt"⟩, ⟨"d", "a_final.txt"⟩]
        "d" "a.txt" 1) = true := by decide

/-- C5 (amended): the path returned by the Unique Path Resolver does not exist
at the time of the existence checks, except when it is the last-resort
`{stem}_final{ext}` fallback, which may collide with an existing file. -/
theorem C5_amended_no_existing_result (fs : List FsPath) (dir fn : String)
    (maxAttempts : Nat) :
    (get_unique_filename fs dir fn maxAttempts).name =
        finalName (pathStem fn) (pathSuffix fn) ∨
      pexists fs (get_unique_filename fs dir fn maxAttempts) = false := by
  unfold get_unique_filename
  by_cases h : pexists fs ⟨dir, fn⟩ = true
  · simp only [h, if_pos]
    exact searchSuffix_final_or_fresh fs dir (pathStem fn) (pathSuffix fn)
      maxAttempts 1
  · simp only [Bool.not_eq_true] at h
    right
    simp [h]

lemma slashLen : ("/" : String).length = 1 := rfl

lemma dir_ne_sub (d c : String) : d ≠ d ++ "/" ++ c := by
  intro h
  have h2 := congrArg String.length h
  simp only [String.length_append, slashLen] at h2
  omega

lemma mem_fsErase_of_mem {l : List FsPath} {x p : FsPath}
    (hx : x ∈ l) (hne : x ≠ p) : x ∈ fsErase l p := by
  induction l with
  | nil => cases hx
  | cons q rest ih =>
      rcases List.mem_cons.mp hx with rfl | hx2
      · simp [fsErase, hne]
      · by_cases hq : q = p
        · simpa [fsErase, hq] using hx2
        · simp only [fsErase, hq, if_neg, if_false]
          exact List.mem_cons_of_mem _ (ih hx2)

lemma mem_fsInsert_of_mem {l : List FsPath} {x : FsPath} (p : FsPath)
    (hx : x ∈ l) : x ∈ fsInsert l p := by
  unfold fsInsert
  by_cases h : p ∈ l <;> simp [h, hx]

lemma mem_fsInsert_self (l : List FsPath) (p : FsPath) : p ∈ fsInsert l p := by
  unfold fsInsert
  by_cases h : p ∈ l <;> simp [h]

lemma moves_subset_step (extMap : List (String × String)) (maxSuffix : Nat)
    (d : String) (st : OrganizeState) (f : FsPath) :
    st.moves ⊆ (organizeStep extMap maxSuffix d st f).moves := by
  unfold organizeStep
  by_cases h1 : f ∈ st.moves.map MoveEvent.src
  · simp [h1]
  · by_cases h2 : getFileCategory extMap f.name = "other" <;>
      simp [h1, h2, List.subset_append_left]

lemma moves_subset_fold (extMap : List (String × String)) (maxSuffix : Nat)
    (d : String) :
    ∀ (l : List FsPath) (st : OrganizeState),
      st.moves ⊆ (l.foldl (organizeStep extMap maxSuffix d) st).moves := by
  intro l
  induction l with
  | nil => intro st; exact fun e he => he
  | cons f rest ih =>
      intro st
      exact fun e he =>
        ih (organizeStep extMap maxSuffix d st f)
          (moves_subset_step extMap maxSuffix d st f he)

/-- Every non-`"other"` file of the listing ends up as the source of some
move event. -/
lemma organize_fold_exists_move (extMap : List (String × String))
    (maxSuffix : Nat) (d : String) :
    ∀ (l : List FsPath) (st : OrganizeState) (f : FsPath), f ∈ l →
      getFileCategory extMap f.name ≠ "other" →
      ∃ e ∈ (l.foldl (organizeStep extMap maxSuffix d) st).moves,
        e.src = f := by
  intro l
  induction l with
  | nil => intro st f hf; cases hf
  | cons g rest ih =>
      intro st f hf hcat
      rcases List.mem_cons.mp hf with rfl | hf2
      · -- the head is processed now (or was already a recorded source)
        by_cases h1 : f ∈ st.moves.map MoveEvent.src
        · rcases List.mem_map.mp h1 with ⟨e, he, hesrc⟩
          exact ⟨e, moves_subset_fold extMap maxSuffix d rest _
            (moves_subset_step extMap maxSuffix d st f he), hesrc⟩
        · have hmem : (⟨f, get_unique_filename st.files
              (d ++ "/" ++ getFileCategory extMap f.name) f.name maxSuffix,
              pexists st.files (get_unique_filename st.files
                (d ++ "/" ++ getFileCategory extMap f.name) f.name maxSuffix)⟩ :
              MoveEvent) ∈ (organizeStep extMap maxSuffix d st f).moves := by
            unfold organizeStep
            simp [h1, hcat]
          exact ⟨_, moves_subset_fold extMap maxSuffix d rest _ hmem, rfl⟩
      · exact ih (organizeStep extMap maxSuffix d st g) f hf2 hcat

lemma orgInv_step (extMap : List (String × String)) (maxSuffix : Nat)
    (d : String) (fs0 : List FsPath) (st : OrganizeState) (f : FsPath)
    (hfd : f.dir = d) (hinv : OrgInv extMap d fs0 st) :
    OrgInv extMap d fs0 (organizeStep extMap maxSuffix d st f) := by
  obtain ⟨hother, hmoves, hnodup⟩ := hinv
  unfold organizeStep
  by_cases h1 : f ∈ st.moves.map MoveEvent.src
  · simpa [h1] using ⟨hother, hmoves, hnodup⟩
  · by_cases h2 : getFileCategory extMap f.name = "other"
    · simpa [h1, h2] using ⟨hother, hmoves, hnodup⟩
    · simp only [h1, h2, if_neg, if_false]
      set cat := getFileCategory extMap f.name with hcat
      set target := get_unique_filename st.files (d ++ "/" ++ cat) f.name
        maxSuffix with htarget
      have htdir : target.dir = d ++ "/" ++ cat := get_unique_dir _ _ _ _
      refine ⟨?_, ?_, ?_⟩
      · -- "other" files survive: they differ from the source (different
        -- category) and from nothing else that is removed
        intro g hg hgd hgo
        have hgf : g ≠ f := by
          intro hgf
          rw [hgf] at hgo
          exact h2 hgo
        exact mem_fsInsert_of_mem _ (mem_fsErase_of_mem (hother g hg hgd hgo) hgf)
      · intro e he
        simp only [List.mem_append, List.mem_singleton] at he
        rcases he with he | rfl
        · obtain ⟨h3, h4, h5⟩ := hmoves e he
          refine ⟨h3, h4, mem_fsInsert_of_mem _ (mem_fsErase_of_mem h5 ?_)⟩
          intro hef
          have : e.dst.dir = f.dir := by rw [hef]
          rw [h4, hfd] at this
          exact dir_ne_sub d (getFileCategory extMap e.src.name) this.symm
        · exact ⟨hfd, htdir, mem_fsInsert_self _ _⟩
      · intro hall
        have hold : ∀ e ∈ st.moves, e.destExisted = false := fun e he =>
          hall e (List.mem_append_left _ he)
      -- the new destination was fresh, hence differs from all earlier
      -- destinations, which still exist in the snapshot
        have hfresh : pexists st.files target = false := by
          have := hall ⟨f, target, pexists st.files target⟩
            (List.mem_append_right _ (List.mem_singleton.mpr rfl))
          simpa using this
        have hnotmem : target ∉ st.files := by
          intro hc
          rw [show pexists st.files target = true from decide_eq_true hc]
            at hfresh
          cases hfresh
        simp only [List.map_append, List.map_cons, List.map_nil]
        rw [List.nodup_append]
        refine ⟨hnodup hold, List.nodup_singleton _, ?_⟩
        intro x hx
        rcases List.mem_map.mp hx with ⟨e, he, hex⟩
        obtain ⟨-, -, h5⟩ := hmoves e he
        simp only [List.mem_singleton]
        intro hxt
        rw [hex.trans hxt] at h5
        exact hnotmem h5

lemma orgInv_fold (extMap : List (String × String)) (maxSuffix : Nat)
    (d : String) (fs0 : List FsPath) :
    ∀ (l : List FsPath) (st : OrganizeState), (∀ f ∈ l, f.dir = d) →
      OrgInv extMap d fs0 st →
      OrgInv extMap d fs0 (l.foldl (organizeStep extMap maxSuffix d) st) := by
  intro l
  induction l with
  | nil => intro st _ h; exact h
  | cons f rest ih =>
      intro st hl hinv
      exact ih (organizeStep extMap maxSuffix d st f)
        (fun g hg => hl g (List.mem_cons_of_mem _ hg))
        (orgInv_step extMap maxSuffix d fs0 st f (hl f (List.mem_cons_self _ _))
          hinv)

lemma filter_dir_mem {fs : List FsPath} {d : String} {f : FsPath}
    (hf : f ∈ fs) (hfd : f.dir = d) :
    f ∈ fs.filter (fun g => decide (g.dir = d)) :=
  List.mem_filter.mpr ⟨hf, by simp [hfd]⟩

/-- C6 counterexample: with `max_suffix = 1`, sources `d/x_final.txt` and
`d/x.txt`, and `documents/x.txt`, `documents/x_1.txt` pre-existing, the first
source moves to `documents/x_final.txt` and the second one exhausts its
candidates and is moved to the same `documents/x_final.txt` by the last-resort
fallback — two moved files share a destination path, refuting the claim. -/
theorem C6_counterexample :
    ((organize_directory [(".txt", "documents")] 1
        [⟨"d", "x_final.txt"⟩, ⟨"d", "x.txt"⟩,
         ⟨"d/documents", "x.txt"⟩, ⟨"d/documents", "x_1.txt"⟩]
        ["d", "d/documents"] "d").moves.map MoveEvent.dst) =
      [⟨"d/documents", "x_final.txt"⟩, ⟨"d/documents", "x_final.txt"⟩] := by
  decide

/-- C6 (amended): after `organize(d)` on an existing directory, every file of
the snapshot classified `"other"` remains in `d` unmoved; every file
classified as a category `c` was moved, and its destination lies in `d/c` and
exists in the final snapshot; and no two moved files share a destination
path, provided no resolution fell back on an already-existing path (the
`{stem}_final` last resort may collide and be reused). -/
theorem C6_organizer_postcondition (extMap : List (String × String))
    (maxSuffix : Nat) (fs : List FsPath) (dirs : List String) (d : String)
    (hd : d ∈ dirs) :
    (∀ f ∈ fs, f.dir = d → getFileCategory extMap f.name = "other" →
      f ∈ (organize_directory extMap maxSuffix fs dirs d).files) ∧
    (∀ f ∈ fs, f.dir = d → getFileCategory extMap f.name ≠ "other" →
      ∃ e ∈ (organize_directory extMap maxSuffix fs dirs d).moves,
        e.src = f ∧
        e.dst ∈ (organize_directory extMap maxSuffix fs dirs d).files ∧
        e.dst.dir = d ++ "/" ++ getFileCategory extMap f.name) ∧
    ((∀ e ∈ (organize_directory extMap maxSuffix fs dirs d).moves,
        e.destExisted = false) →
      ((organize_directory extMap maxSuffix fs dirs d).moves.map
        MoveEvent.dst).Nodup) := by
  have hrw : organize_directory extMap maxSuffix fs dirs d =
      (fs.filter (fun f => decide (f.dir = d))).foldl
        (organizeStep extMap maxSuffix d) ⟨fs, dirs, [], []⟩ := by
    unfold organize_directory
    rw [if_pos hd]
  have hL : ∀ f ∈ fs.filter (fun g => decide (g.dir = d)), f.dir = d := by
    intro f hf
    have := (List.mem_filter.mp hf).2
    simpa using this
  have hinv : OrgInv extMap d fs
      ((fs.filter (fun f => decide (f.dir = d))).foldl
        (organizeStep extMap maxSuffix d) ⟨fs, dirs, [], []⟩) := by
    refine orgInv_fold extMap maxSuffix d fs _ _ hL ⟨?_, ?_, ?_⟩
    · intro f hf _ _; exact hf
    · intro e he; cases he
    · intro _; simp
  obtain ⟨hother, hmoves, hnodup⟩ := hinv
  refine ⟨?_, ?_, ?_⟩
  · intro f hf hfd hfo
    rw [hrw]
    exact hother f hf hfd hfo
  · intro f hf hfd hfc
    rw [hrw]
    obtain ⟨e, he, hesrc⟩ := organize_fold_exists_move extMap maxSuffix d
      _ ⟨fs, dirs, [], []⟩ f (filter_dir_mem hf hfd) hfc
    obtain ⟨-, h4, h5⟩ := hmoves e he
    exact ⟨e, he, hesrc, h5, by rw [h4, hesrc]⟩
  · intro hall
    rw [hrw] at hall ⊢
    exact hnodup hall

/-- Witness for C6: a directory with `a.txt` (→ `documents`) and `b.bin`
(unclassified): the `"other"` file stays, `a.txt` is moved into
`d/documents`, and the destinations are distinct. -/
theorem C6_organizer_postcondition_witness :
    (⟨"d", "b.bin"⟩ : FsPath) ∈
      (organize_directory [(".txt", "documents")] 3
        [⟨"d", "a.txt"⟩, ⟨"d", "b.bin"⟩] ["d"] "d").files ∧
    (∃ e ∈ (organize_directory [(".txt", "documents")] 3
        [⟨"d", "a.txt"⟩, ⟨"d", "b.bin"⟩] ["d"] "d").moves,
      e.src = ⟨"d", "a.txt"⟩ ∧
      e.dst ∈ (organize_directory [(".txt", "documents")] 3
        [⟨"d", "a.txt"⟩, ⟨"d", "b.bin"⟩] ["d"] "d").files ∧
      e.dst.dir = "d" ++ "/" ++
        getFileCategory [(".txt", "documents")] "a.txt") ∧
    ((organize_directory [(".txt", "documents")] 3
        [⟨"d", "a.txt"⟩, ⟨"d", "b.bin"⟩] ["d"] "d").moves.map
      MoveEvent.dst).Nodup := by
  obtain ⟨h1, h2, h3⟩ := C6_organizer_postcondition [(".txt", "documents")] 3
    [⟨"d", "a.txt"⟩, ⟨"d", "b.bin"⟩] ["d"] "d" (by decide)
  exact ⟨h1 ⟨"d", "b.bin"⟩ (by decide) (by decide) (by decide),
    h2 ⟨"d", "a.txt"⟩ (by decide) (by decide) (by decide),
    h3 (by decide)⟩

lemma organizeStep_other (extMap : List (String × String)) (maxSuffix : Nat)
    (d : String) (st : OrganizeState) (f : FsPath)
    (h : getFileCategory extMap f.name = "other") :
    organizeStep extMap maxSuffix d st f = st := by
  unfold organizeStep
  by_cases h1 : f ∈ st.moves.map MoveEvent.src <;> simp [h1, h]

lemma organize_fold_all_other (extMap : List (String × String))
    (maxSuffix : Nat) (d : String) :
    ∀ (l : List FsPath) (st : OrganizeState),
      (∀ f ∈ l, getFileCategory extMap f.name = "other") →
      l.foldl (organizeStep extMap maxSuffix d) st = st := by
  intro l
  induction l with
  | nil => intro st _; rfl
  | cons f rest ih =>
      intro st hall
      rw [List.foldl_cons,
        organizeStep_other extMap maxSuffix d st f (hall f (List.mem_cons_self _ _))]
      exact ih st (fun g hg => hall g (List.mem_cons_of_mem _ hg))

/-- C10: when the directory does not exist, `organize` returns the untouched
state with empty statistics; and when it exists but every immediate file
classifies as `"other"` (including an empty directory), `organize` completes
successfully, moves nothing, and returns the very same empty statistics
record — so an empty result does not distinguish total failure from a
successful run that moved no files. -/
theorem C10_empty_stats_ambiguity (extMap : List (String × String))
    (maxSuffix : Nat) (fs : List FsPath) (dirs : List String) (d : String) :
    (d ∉ dirs →
      organize_directory extMap maxSuffix fs dirs d = ⟨fs, dirs, [], []⟩) ∧
    (d ∈ dirs →
      (∀ f ∈ fs, f.dir = d → getFileCategory extMap f.name = "other") →
      organize_directory extMap maxSuffix fs dirs d = ⟨fs, dirs, [], []⟩) := by
  constructor
  · intro hd
    unfold organize_directory
    rw [if_neg hd]
  · intro hd hall
    unfold organize_directory
    rw [if_pos hd]
    exact organize_fold_all_other extMap maxSuffix d _ _
      (fun f hf => hall f (List.mem_filter.mp hf).1
        (by simpa using (List.mem_filter.mp hf).2))

/-- Witness for C10: a missing directory and a directory holding only an
unclassifiable file produce the identical empty result. -/
theorem C10_empty_stats_ambiguity_witness :
    organize_directory [(".txt", "documents")] 3 [⟨"d", "a.xyz"⟩] [] "d" =
      ⟨[⟨"d", "a.xyz"⟩], [], [], []⟩ ∧
    organize_directory [(".txt", "documents")] 3 [⟨"d", "a.xyz"⟩] ["d"] "d" =
      ⟨[⟨"d", "a.xyz"⟩], ["d"], [], []⟩ := by
  constructor
  · exact (C10_empty_stats_ambiguity [(".txt", "documents")] 3
      [⟨"d", "a.xyz"⟩] [] "d").1 (by decide)
  · exact (C10_empty_stats_ambiguity [(".txt", "documents")] 3
      [⟨"d", "a.xyz"⟩] ["d"] "d").2 (by decide) (by decide)

/-! ### List and well-formedness utilities -/

lemma getD_eq_get?_getD {α : Type} (l : List α) (j : Nat) (d : α) :
    l.getD j d = (l.get? j).getD d := by
  simp [List.getD_eq_getElem?_getD, List.get?_eq_getElem?]

lemma mapWithIndexFrom_get? {α β : Type} (f : Nat → α → β) :
    ∀ (l : List α) (k j : Nat),
      (mapWithIndexFrom f k l).get? j = (l.get? j).map (f (k + j)) := by
  intro l
  induction l with
  | nil => intro k j; rfl
  | cons a as ih =>
      intro k j
      cases j with
      | zero => rfl
      | succ j =>
          have h : k + 1 + j = k + (j + 1) := by omega
          simp only [mapWithIndexFrom, List.get?_cons_succ, ih (k + 1) j, h]

lemma mapWithIndexFrom_length {α β : Type} (f : Nat → α → β) :
    ∀ (l : List α) (k : Nat), (mapWithIndexFrom f k l).length = l.length := by
  intro l
  induction l with
  | nil => intro k; rfl
  | cons a as ih => intro k; simp [mapWithIndexFrom, ih]

lemma mapWithIndex_getD_cell (f : Nat → Cell → Cell) (r : Row) (j : Nat)
    (hj : j < r.length) :
    (mapWithIndex f r).getD j none = f j (r.getD j none) := by
  have h1 : r.get? j = some (r.get ⟨j, hj⟩) := List.get?_eq_get hj
  rw [getD_eq_get?_getD, getD_eq_get?_getD, mapWithIndex,
    mapWithIndexFrom_get? f r 0 j, h1]
  simp

lemma rowOk_length {kinds : List ColKind} {r : Row}
    (h : rowOk kinds r = true) : r.length = kinds.length := by
  unfold rowOk at h
  have := (Bool.and_eq_true _ _).mp h
  exact of_decide_eq_true this.1

lemma tableOk_row {t : Table} (h : tableOk t = true) {r : Row}
    (hr : r ∈ t.rows) : rowOk t.kinds r = true :=
  List.all_eq_true.mp h r hr

lemma countMissing_eq_zero {rows : List Row} :
    countMissing rows = 0 ↔ ∀ r ∈ rows, ∀ c ∈ r, ¬ c = none := by
  unfold countMissing countMissingRow
  rw [List.sum_eq_zero_iff]
  simp [List.countP_eq_zero]

lemma mem_colCells {rows : List Row} {j : Nat} {c : Cell} :
    c ∈ colCells rows j ↔ ∃ r ∈ rows, r.getD j none = c := by
  simp [colCells, List.mem_map]

lemma colCells_handle_missing (t : Table) (hwf : tableOk t = true) (j : Nat)
    (hj : j < t.kinds.length) :
    colCells (handle_missing_values t).rows j =
      (colCells t.rows j).map
        (fillCell (fillValueFor (t.kinds.getD j ColKind.text)
          (colCells t.rows j))) := by
  by_cases h0 : countMissing t.rows = 0
  · -- no missing value anywhere: the frame is returned unchanged, and the
    -- column has no `none` cell so the fill map is the identity on it
    have hid : ∀ c ∈ colCells t.rows j,
        fillCell (fillValueFor (t.kinds.getD j ColKind.text)
          (colCells t.rows j)) c = c := by
      intro c hc
      obtain ⟨r, hr, hrc⟩ := mem_colCells.mp hc
      have hlen : r.length = t.kinds.length := rowOk_length (tableOk_row hwf hr)
      have hjr : j < r.length := by omega
      cases hcase : c with
      | some v => rfl
      | none =>
          exfalso
          have h2 : r.get? j = some (r.get ⟨j, hjr⟩) := List.get?_eq_get hjr
          have h3 : r.get ⟨j, hjr⟩ = none := by
            rw [getD_eq_get?_getD, h2] at hrc
            simpa [hcase] using hrc
          have h4 : (none : Cell) ∈ r := by
            rw [← h3]
            exact List.get_mem r j hjr
          exact (countMissing_eq_zero.mp h0 r hr none h4) rfl
    rw [handle_missing_values, if_pos h0]
    exact ((List.map_congr_left hid).trans (List.map_id _)).symm
  · rw [handle_missing_values, if_neg h0]
    show colCells (t.rows.map _) j = _
    unfold colCells
    rw [List.map_map, List.map_map]
    refine List.map_congr_left ?_
    intro r hr
    have hlen : r.length = t.kinds.length := rowOk_length (tableOk_row hwf hr)
    have hjr : j < r.length := by omega
    simp only [Function.comp]
    rw [mapWithIndex_getD_cell _ r j hjr]

/-! ### Order facts about the code-point string comparison -/

lemma strLtB_irrefl : ∀ a : List Char, strLtB a a = false := by
  intro a
  induction a with
  | nil => rfl
  | cons x xs ih => simp [strLtB, ih]

lemma strLtB_asymm : ∀ a b : List Char,
    strLtB a b = true → strLtB b a = false := by
  intro a
  induction a with
  | nil =>
      intro b h
      cases b with
      | nil => simp [strLtB] at h
      | cons y bs => rfl
  | cons x xs ih =>
      intro b h
      cases b with
      | nil => simp [strLtB] at h
      | cons y bs =>
          by_cases h1 : x.toNat < y.toNat
          · have h2 : ¬ y.toNat < x.toNat := by omega
            simp [strLtB, h1, h2]
          · by_cases h2 : y.toNat < x.toNat
            · simp [strLtB, h1, h2] at h
            · simp only [strLtB, if_neg h1, if_neg h2] at h
              simp [strLtB, h1, h2, ih bs h]

lemma strLtB_neg_trans : ∀ a b c : List Char,
    strLtB a b = false → strLtB b c = false → strLtB a c = false := by
  intro a
  induction a with
  | nil =>
      intro b c hab hbc
      cases b with
      | nil => cases c with
        | nil => rfl
        | cons z cs => simp [strLtB] at hbc
      | cons y bs => simp [strLtB] at hab
  | cons x xs ih =>
      intro b c hab hbc
      cases c with
      | nil => rfl
      | cons z cs =>
          cases b with
          | nil => simp [strLtB] at hbc
          | cons y bs =>
              simp only [strLtB] at hab hbc
              by_cases h1 : x.toNat < y.toNat
              · simp [h1] at hab
              · by_cases h2 : y.toNat < z.toNat
                · simp [h2] at hbc
                · have h3 : ¬ x.toNat < z.toNat := by omega
                  simp only [strLtB, if_neg h3]
                  by_cases h4 : z.toNat < x.toNat
                  · simp [h4]
                  · have h5 : y.toNat = x.toNat := by omega
                    have h6 : z.toNat = y.toNat := by omega
                    have h7 : ¬ y.toNat < x.toNat := by omega
                    have h8 : ¬ z.toNat < y.toNat := by omega
                    simp only [if_neg h1, if_neg h7] at hab
                    simp only [if_neg h2, if_neg h8] at hbc
                    simp [h4, ih bs cs hab hbc]

lemma pyStrLt_irrefl (a : String) : pyStrLt a a = false := strLtB_irrefl _

lemma pyStrLt_asymm {a b : String} (h : pyStrLt a b = true) :
    pyStrLt b a = false := strLtB_asymm _ _ h

lemma pyStrLt_neg_trans {a b c : String} (hab : pyStrLt a b = false)
    (hbc : pyStrLt b c = false) : pyStrLt a c = false :=
  strLtB_neg_trans _ _ _ hab hbc

/-! ### Characterization of `modeHead` (pandas `mode()[0]`) -/

lemma modeHead_fold (xs : List String) :
    ∀ (l : List String) (m : String),
      ∃ m2, l.foldl (pickBetter xs) (some m) = some m2 ∧
        (m2 = m ∨ m2 ∈ l) ∧
        occ xs m ≤ occ xs m2 ∧
        (occ xs m2 = occ xs m → pyStrLt m m2 = false) ∧
        (∀ v ∈ l, occ xs v ≤ occ xs m2 ∧
          (occ xs v = occ xs m2 → pyStrLt v m2 = false)) := by
  intro l
  induction l with
  | nil =>
      intro m
      exact ⟨m, rfl, Or.inl rfl, le_rfl, fun _ => pyStrLt_irrefl m,
        fun v hv => absurd hv (List.not_mem_nil v)⟩
  | cons v l ih =>
      intro m
      by_cases hc : occ xs m < occ xs v ∨
          (occ xs v = occ xs m ∧ pyStrLt v m = true)
      · -- the head wins: continue the fold from `v`
        have hstep : (v :: l).foldl (pickBetter xs) (some m) =
            l.foldl (pickBetter xs) (some v) := by
          simp [List.foldl_cons, pickBetter, hc]
        obtain ⟨m2, hfold, hmem, hle, htie, hall⟩ := ih v
        have hmle : occ xs m ≤ occ xs v := by
          rcases hc with hlt | ⟨heq, _⟩
          · exact le_of_lt hlt
          · exact le_of_eq heq.symm
        refine ⟨m2, hstep.trans hfold, ?_, le_trans hmle hle, ?_, ?_⟩
        · rcases hmem with rfl | hm2
          · exact Or.inr (List.mem_cons_self _ _)
          · exact Or.inr (List.mem_cons_of_mem _ hm2)
        · intro h2m
          have hvm : occ xs v = occ xs m := by omega
          have hv2 : occ xs m2 = occ xs v := by omega
          rcases hc with hlt | ⟨-, hvlt⟩
          · omega
          · exact pyStrLt_neg_trans (pyStrLt_asymm hvlt) (htie hv2)
        · intro w hw
          rcases List.mem_cons.mp hw with rfl | hw2
          · exact ⟨hle, fun hweq => htie (by omega)⟩
          · exact hall w hw2
      · -- the accumulator survives this step
        have hstep : (v :: l).foldl (pickBetter xs) (some m) =
            l.foldl (pickBetter xs) (some m) := by
          simp [List.foldl_cons, pickBetter, hc]
        push_neg at hc
        obtain ⟨hvle, hvtie⟩ := hc
        obtain ⟨m2, hfold, hmem, hle, htie, hall⟩ := ih m
        refine ⟨m2, hstep.trans hfold, ?_, hle, htie, ?_⟩
        · rcases hmem with rfl | hm2
          · exact Or.inl rfl
          · exact Or.inr (List.mem_cons_of_mem _ hm2)
        · intro w hw
          rcases List.mem_cons.mp hw with rfl | hw2
          · refine ⟨le_trans hvle hle, fun hweq => ?_⟩
            have h1 : occ xs w = occ xs m := by omega
            have h2 : pyStrLt w m = false := by
              cases hwm : pyStrLt w m with
              | false => rfl
              | true => exact absurd hwm (hvtie h1)
            exact pyStrLt_neg_trans h2 (htie (by omega))
          · exact hall w hw2

lemma modeHead_spec (xs : List String) (hx : xs ≠ []) :
    ∃ m, modeHead xs = some m ∧ m ∈ xs ∧
      (∀ v ∈ xs, occ xs v ≤ occ xs m) ∧
      (∀ v ∈ xs, occ xs v = occ xs m → pyStrLt v m = false) := by
  cases xs with
  | nil => exact absurd rfl hx
  | cons x l =>
      obtain ⟨m2, hfold, hmem, hle, htie, hall⟩ := modeHead_fold (x :: l) l x
      have hm2mem : m2 ∈ x :: l := by
        rcases hmem with rfl | h
        · exact List.mem_cons_self _ _
        · exact List.mem_cons_of_mem _ h
      refine ⟨m2, ?_, hm2mem, ?_, ?_⟩
      · show (x :: l).foldl (pickBetter (x :: l)) none = some m2
        rw [List.foldl_cons]
        exact hfold
      · intro v hv
        rcases List.mem_cons.mp hv with rfl | hv2
        · exact hle
        · exact (hall v hv2).1
      · intro v hv hveq
        rcases List.mem_cons.mp hv with rfl | hv2
        · exact htie (by omega)
        · exact (hall v hv2).2 hveq

/-- C2 counterexample: in the column `["y", "x", missing]` the present values
`"y"` and `"x"` are tied (one occurrence each); the first-encountered value
among the tied set is `"y"`, but the code fills the missing cell with `"x"`
(pandas returns modes sorted ascending and the code takes the first) —
refuting the claimed first-encountered tie-break. -/
theorem C2_counterexample :
    colCells (handle_missing_values ⟨[ColKind.text],
        [[some (Value.str "y")], [some (Value.str "x")], [none]]⟩).rows 0 =
      [some (Value.str "y"), some (Value.str "x"), some (Value.str "x")] ∧
    specModeFirstEncountered
      (presentStrs (colCells
        [[some (Value.str "y")], [some (Value.str "x")], [none]] 0)) =
      some "y" ∧
    ("x" : String) ≠ "y" := by
  refine ⟨by decide, by decide, by decide⟩

/-- C2 (amended): in `clean`, for every non-numeric column containing at
least one absent cell, every absent cell is replaced by the mode of the
column's present values, with ties broken in favor of the smallest value in
Python string order among the tied set (pandas `mode()` sorts ascending and
the code takes index 0); if the column has zero present values, every absent
cell is replaced by the sentinel text `"Unknown"`. -/
theorem C2_categorical_imputation (t : Table) (j : Nat)
    (hwf : tableOk t = true) (hj : t.kinds.get? j = some ColKind.text)
    (hmiss : none ∈ colCells t.rows j) :
    ∃ m : String,
      colCells (handle_missing_values t).rows j =
        (colCells t.rows j).map (fillCell (some (Value.str m))) ∧
      (presentStrs (colCells t.rows j) = [] → m = "Unknown") ∧
      (presentStrs (colCells t.rows j) ≠ [] →
        m ∈ presentStrs (colCells t.rows j) ∧
        (∀ v ∈ presentStrs (colCells t.rows j),
          occ (presentStrs (colCells t.rows j)) v ≤
            occ (presentStrs (colCells t.rows j)) m) ∧
        (∀ v ∈ presentStrs (colCells t.rows j),
          occ (presentStrs (colCells t.rows j)) v =
            occ (presentStrs (colCells t.rows j)) m →
          pyStrLt v m = false)) := by
  have hjlen : j < t.kinds.length := by
    rcases List.get?_eq_some.mp hj with ⟨h, -⟩
    exact h
  have hgetD : t.kinds.getD j ColKind.text = ColKind.text := by
    rw [getD_eq_get?_getD, hj]
    rfl
  have hfv : fillValueFor (t.kinds.getD j ColKind.text) (colCells t.rows j) =
      some (Value.str ((modeHead (presentStrs (colCells t.rows j))).getD
        "Unknown")) := by
    rw [hgetD]
    unfold fillValueFor
    rw [if_pos hmiss]
  have hcol := colCells_handle_missing t hwf j hjlen
  rw [hfv] at hcol
  refine ⟨(modeHead (presentStrs (colCells t.rows j))).getD "Unknown",
    hcol, fun hps => ?_, fun hps => ?_⟩
  · rw [hps]
    rfl
  · obtain ⟨m0, hm0, hmem, hmax, htie⟩ :=
      modeHead_spec (presentStrs (colCells t.rows j)) hps
    rw [hm0]
    exact ⟨hmem, hmax, htie⟩

/-- Witness for C2: the column `["b", missing]` gets its absent cell filled
with the mode `"b"`. -/
theorem C2_categorical_imputation_witness :
    ∃ m : String,
      colCells (handle_missing_values ⟨[ColKind.text],
          [[some (Value.str "b")], [none]]⟩).rows 0 =
        (colCells [[some (Value.str "b")], [none]] 0).map
          (fillCell (some (Value.str m))) ∧
      (presentStrs (colCells [[some (Value.str "b")], [none]] 0) = [] →
        m = "Unknown") ∧
      (presentStrs (colCells [[some (Value.str "b")], [none]] 0) ≠ [] →
        m ∈ presentStrs (colCells [[some (Value.str "b")], [none]] 0) ∧
        (∀ v ∈ presentStrs (colCells [[some (Value.str "b")], [none]] 0),
          occ (presentStrs (colCells [[some (Value.str "b")], [none]] 0)) v ≤
            occ (presentStrs (colCells [[some (Value.str "b")], [none]] 0)) m) ∧
        (∀ v ∈ presentStrs (colCells [[some (Value.str "b")], [none]] 0),
          occ (presentStrs (colCells [[some (Value.str "b")], [none]] 0)) v =
            occ (presentStrs (colCells [[some (Value.str "b")], [none]] 0)) m →
          pyStrLt v m = false)) :=
  C2_categorical_imputation
    ⟨[ColKind.text], [[some (Value.str "b")], [none]]⟩ 0
    (by decide) rfl (by decide)

/-- C3: in `clean`, for every numeric column with at least one absent cell
and at least one present value, every absent cell is replaced by the median
of the column's present values (`median` sorts the present values and, for an
even count, averages the two middle ones); in particular the column
`[10, missing, 30]` becomes `[10, 20, 30]`. -/
theorem C3_numeric_imputation (t : Table) (j : Nat)
    (hwf : tableOk t = true) (hj : t.kinds.get? j = some ColKind.numeric)
    (hmiss : none ∈ colCells t.rows j)
    (hpres : presentNums (colCells t.rows j) ≠ []) :
    (∃ mq : ℚ, median (presentNums (colCells t.rows j)) = some mq ∧
      colCells (handle_missing_values t).rows j =
        (colCells t.rows j).map (fillCell (some (Value.num mq)))) ∧
    colCells (handle_missing_values ⟨[ColKind.numeric],
        [[some (Value.num 10)], [none], [some (Value.num 30)]]⟩).rows 0 =
      [some (Value.num 10), some (Value.num 20), some (Value.num 30)] := by
  constructor
  · have hjlen : j < t.kinds.length := by
      rcases List.get?_eq_some.mp hj with ⟨h, -⟩
      exact h
    have hgetD : t.kinds.getD j ColKind.text = ColKind.numeric := by
      rw [getD_eq_get?_getD, hj]
      rfl
    obtain ⟨mq, hmq⟩ : ∃ mq, median (presentNums (colCells t.rows j)) =
        some mq := by
      unfold median
      have hlen : presentNums (colCells t.rows j) ≠ [] := hpres
      rw [if_neg (fun h0 => hlen (List.length_eq_zero.mp h0))]
      by_cases hpar : (presentNums (colCells t.rows j)).length % 2 = 1
      · rw [if_pos hpar]; exact ⟨_, rfl⟩
      · rw [if_neg hpar]; exact ⟨_, rfl⟩
    have hfv : fillValueFor (t.kinds.getD j ColKind.text)
        (colCells t.rows j) = some (Value.num mq) := by
      rw [hgetD]
      unfold fillValueFor
      rw [if_pos hmiss]
      simp [hmq]
    have hcol := colCells_handle_missing t hwf j hjlen
    rw [hfv] at hcol
    exact ⟨mq, hmq, hcol⟩
  · have hcol := colCells_handle_missing
      ⟨[ColKind.numeric], [[some (Value.num 10)], [none], [some (Value.num 30)]]⟩
      (by decide) 0 (by decide)
    have hcells : colCells
        [[some (Value.num 10)], [none], [some (Value.num 30)]] 0 =
        [some (Value.num 10), none, some (Value.num 30)] := rfl
    have hmed : median (presentNums
        [some (Value.num 10), none, some (Value.num 30)]) = some 20 := by
      show median [(10 : ℚ), 30] = some 20
      norm_num [median, List.insertionSort, List.orderedInsert]
    rw [hcells] at hcol
    have hfv : fillValueFor
        (([ColKind.numeric] : List ColKind).getD 0 ColKind.text)
        [some (Value.num 10), none, some (Value.num 30)] =
        some (Value.num 20) := by
      unfold fillValueFor
      rw [if_pos (by decide)]
      show (median (presentNums
        [some (Value.num 10), none, some (Value.num 30)])).map Value.num = _
      rw [hmed]
      rfl
    rw [hfv] at hcol
    rw [hcol]
    rfl

/-- Witness for C3: the numeric column `[10, missing, 30]`. -/
theorem C3_numeric_imputation_witness :
    ∃ mq : ℚ, median (presentNums (colCells
        [[some (Value.num 10)], [none], [some (Value.num 30)]] 0)) = some mq ∧
      colCells (handle_missing_values ⟨[ColKind.numeric],
          [[some (Value.num 10)], [none], [some (Value.num 30)]]⟩).rows 0 =
        (colCells [[some (Value.num 10)], [none], [some (Value.num 30)]] 0).map
          (fillCell (some (Value.num mq))) :=
  (C3_numeric_imputation
    ⟨[ColKind.numeric], [[some (Value.num 10)], [none], [some (Value.num 30)]]⟩
    0 (by decide) rfl (by decide) (by decide)).1

/-! ### Deduplication lemmas -/

lemma ddAux_sublist : ∀ (l seen : List Row), (ddAux seen l).Sublist l := by
  intro l
  induction l with
  | nil => intro seen; exact List.Sublist.refl []
  | cons r rs ih =>
      intro seen
      by_cases h : r ∈ seen
      · simp only [ddAux, if_pos h]
        exact (ih (r :: seen)).cons r
      · simp only [ddAux, if_neg h]
        exact (ih (r :: seen)).cons₂ r

lemma mem_ddAux : ∀ (l seen : List Row) (x : Row),
    x ∈ ddAux seen l ↔ x ∈ l ∧ x ∉ seen := by
  intro l
  induction l with
  | nil => intro seen x; simp [ddAux]
  | cons r rs ih =>
      intro seen x
      by_cases h : r ∈ seen
      · rw [ddAux, if_pos h, ih (r :: seen) x]
        constructor
        · rintro ⟨h1, h2⟩
          exact ⟨List.mem_cons_of_mem _ h1,
            fun hs => h2 (List.mem_cons_of_mem _ hs)⟩
        · rintro ⟨h1, h2⟩
          rcases List.mem_cons.mp h1 with rfl | h3
          · exact absurd h h2
          · refine ⟨h3, fun hs => ?_⟩
            rcases List.mem_cons.mp hs with rfl | h4
            · exact h2 h
            · exact h2 h4
      · rw [ddAux, if_neg h]
        constructor
        · intro hx
          rcases List.mem_cons.mp hx with rfl | hx2
          · exact ⟨List.mem_cons_self _ _, h⟩
          · obtain ⟨h1, h2⟩ := (ih (r :: seen) x).mp hx2
            exact ⟨List.mem_cons_of_mem _ h1,
              fun hs => h2 (List.mem_cons_of_mem _ hs)⟩
        · rintro ⟨h1, h2⟩
          rcases List.mem_cons.mp h1 with rfl | h3
          · exact List.mem_cons_self _ _
          · by_cases hxr : x = r
            · subst hxr; exact List.mem_cons_self _ _
            · refine List.mem_cons_of_mem _ ((ih (r :: seen) x).mpr ⟨h3, ?_⟩)
              intro hs
              rcases List.mem_cons.mp hs with h4 | h4
              · exact hxr h4
              · exact h2 h4

lemma mem_dropDuplicates {rows : List Row} {x : Row} :
    x ∈ dropDuplicates rows ↔ x ∈ rows := by
  rw [dropDuplicates, mem_ddAux]
  simp

lemma ddAux_length_add_dupAux : ∀ (l seen : List Row),
    (ddAux seen l).length + dupAux seen l = l.length := by
  intro l
  induction l with
  | nil => intro seen; rfl
  | cons r rs ih =>
      intro seen
      by_cases h : r ∈ seen
      · rw [ddAux, if_pos h, dupAux, if_pos h]
        have := ih (r :: seen)
        simp only [List.length_cons]
        omega
      · rw [ddAux, if_neg h, dupAux, if_neg h]
        have := ih (r :: seen)
        simp only [List.length_cons]
        omega

lemma dropDuplicates_length (rows : List Row) :
    (dropDuplicates rows).length = rows.length - duplicatedCount rows := by
  have := ddAux_length_add_dupAux rows []
  unfold dropDuplicates duplicatedCount
  omega

lemma duplicatedCount_le (rows : List Row) :
    duplicatedCount rows ≤ rows.length := by
  have := ddAux_length_add_dupAux rows []
  unfold duplicatedCount
  omega

lemma dupAux_eq_zero : ∀ (l seen : List Row), l.Nodup →
    (∀ x ∈ l, x ∉ seen) → dupAux seen l = 0 := by
  intro l
  induction l with
  | nil => intro seen _ _; rfl
  | cons r rs ih =>
      intro seen hnd hdisj
      have h1 : r ∉ seen := hdisj r (List.mem_cons_self _ _)
      rw [dupAux, if_neg h1, Nat.zero_add]
      obtain ⟨hr, hrs⟩ := List.nodup_cons.mp hnd
      refine ih (r :: seen) hrs ?_
      intro x hx hmem
      rcases List.mem_cons.mp hmem with rfl | h2
      · exact hr hx
      · exact hdisj x (List.mem_cons_of_mem _ hx) h2

lemma duplicatedCount_eq_zero_of_nodup {rows : List Row}
    (h : rows.Nodup) : duplicatedCount rows = 0 :=
  dupAux_eq_zero rows [] h (fun x _ hx => absurd hx (List.not_mem_nil x))

lemma specKeep_cons (r : Row) (rs : List Row) :
    specKeepFirstOccurrences (r :: rs) =
      r :: specKeepFirstOccurrences (rs.filter (fun x => decide (x ≠ r))) := by
  rw [specKeepFirstOccurrences]

lemma ddAux_eq_specKeep : ∀ (l seen : List Row),
    ddAux seen l =
      specKeepFirstOccurrences (l.filter (fun x => decide (x ∉ seen))) := by
  intro l
  induction l with
  | nil => intro seen; simp [ddAux, specKeepFirstOccurrences]
  | cons r rs ih =>
      intro seen
      by_cases h : r ∈ seen
      · have hfilter : rs.filter (fun x => decide (x ∉ r :: seen)) =
            rs.filter (fun x => decide (x ∉ seen)) := by
          refine List.filter_congr ?_
          intro x _
          refine decide_eq_decide.mpr ?_
          simp only [List.mem_cons]
          constructor
          · intro h1 h2; exact h1 (Or.inr h2)
          · rintro h1 (rfl | h2)
            · exact h1 h
            · exact h1 h2
        have hcons : (r :: rs).filter (fun x => decide (x ∉ seen)) =
            rs.filter (fun x => decide (x ∉ seen)) := by
          rw [List.filter_cons]
          simp [h]
        rw [ddAux, if_pos h, ih (r :: seen), hfilter, hcons]
      · have hcons : (r :: rs).filter (fun x => decide (x ∉ seen)) =
            r :: rs.filter (fun x => decide (x ∉ seen)) := by
          rw [List.filter_cons]
          simp [h]
        have hpred : (rs.filter (fun x => decide (x ∉ seen))).filter
              (fun x => decide (x ≠ r)) =
            rs.filter (fun x => decide (x ∉ r :: seen)) := by
          rw [List.filter_filter]
          refine List.filter_congr ?_
          intro x _
          by_cases h1 : x = r <;> by_cases h2 : x ∈ seen <;>
            simp [h1, h2, List.mem_cons]
        rw [ddAux, if_neg h, ih (r :: seen), hcons, specKeep_cons, hpred]

lemma dropDuplicates_eq_spec (rows : List Row) :
    dropDuplicates rows = specKeepFirstOccurrences rows := by
  rw [dropDuplicates, ddAux_eq_specKeep rows []]
  congr 1
  have : rows.filter (fun x => decide (x ∉ ([] : List Row))) =
      rows.filter (fun _ => true) := by
    refine List.filter_congr ?_
    intro x _
    simp
  rw [this, List.filter_true]

/-! ### Row-count lemmas for the cleaning pipeline -/

lemma handle_missing_length (t : Table) :
    (handle_missing_values t).rows.length = t.rows.length := by
  unfold handle_missing_values
  by_cases h : countMissing t.rows = 0 <;> simp [h]

lemma standardize_length (t : Table) :
    (standardize_data_types t).rows.length = t.rows.length := by
  simp [standardize_data_types]

lemma cleanTable_rows_length (t : Table) :
    (cleanTable t).rows.length = t.rows.length - duplicatedCount t.rows := by
  unfold cleanTable
  rw [standardize_length, handle_missing_length]
  exact dropDuplicates_length t.rows

/-- C4: deduplication in `clean` keeps exactly the first occurrence of each
distinct row (equality with the spec-side description), preserves the
relative order of kept rows (sublist), and on the row multiset
`[A, B, A, C, A]` finds 2 duplicates, keeps `[A, B, C]` in order, and reports
`final_rows = 3` and `rows_removed = 2`.  Rows compare by full cell-list
equality with the absent marker equal to itself. -/
theorem C4_deduplication (rows : List Row) (A B C : Row)
    (hAB : A ≠ B) (hAC : A ≠ C) (hBC : B ≠ C) :
    dropDuplicates rows = specKeepFirstOccurrences rows ∧
    (dropDuplicates rows).Sublist rows ∧
    dropDuplicates [A, B, A, C, A] = [A, B, C] ∧
    (∀ ks : List ColKind,
      (cleanStats ⟨ks, [A, B, A, C, A]⟩).duplicate_rows_found = 2 ∧
      (cleanStats ⟨ks, [A, B, A, C, A]⟩).final_rows = 3 ∧
      (cleanStats ⟨ks, [A, B, A, C, A]⟩).rows_removed = 2) := by
  have hdd : dropDuplicates [A, B, A, C, A] = [A, B, C] := by
    simp [dropDuplicates, ddAux, List.mem_cons, hAB, hAC, hBC,
      Ne.symm hAB, Ne.symm hAC, Ne.symm hBC]
  have hdup : duplicatedCount [A, B, A, C, A] = 2 := by
    simp [duplicatedCount, dupAux, List.mem_cons, hAB, hAC, hBC,
      Ne.symm hAB, Ne.symm hAC, Ne.symm hBC]
  refine ⟨dropDuplicates_eq_spec rows, ddAux_sublist rows [], hdd, fun ks => ?_⟩
  have hfinal : (cleanStats (⟨ks, [A, B, A, C, A]⟩ : Table)).final_rows = 3 := by
    show (cleanTable ⟨ks, [A, B, A, C, A]⟩).rows.length = 3
    rw [cleanTable_rows_length]
    simp only [hdup]
    rfl
  refine ⟨hdup, hfinal, ?_⟩
  show ([A, B, A, C, A] : List Row).length -
    (cleanTable ⟨ks, [A, B, A, C, A]⟩).rows.length = 2
  rw [cleanTable_rows_length]
  simp only [hdup]
  rfl

/-- Witness for C4: three concrete pairwise-distinct one-cell rows. -/
theorem C4_deduplication_witness :
    dropDuplicates [[some (Value.str "a")], [some (Value.str "b")],
        [some (Value.str "a")], [some (Value.str "c")],
        [some (Value.str "a")]] =
      [[some (Value.str "a")], [some (Value.str "b")],
        [some (Value.str "c")]] ∧
    (cleanStats ⟨[ColKind.text],
        [[some (Value.str "a")], [some (Value.str "b")],
         [some (Value.str "a")], [some (Value.str "c")],
         [some (Value.str "a")]]⟩).final_rows = 3 := by
  obtain ⟨-, -, h3, h4⟩ := C4_deduplication []
    [some (Value.str "a")] [some (Value.str "b")] [some (Value.str "c")]
    (by decide) (by decide) (by decide)
  exact ⟨h3, (h4 [ColKind.text]).2.1⟩

/-- C7: deduplication is the only row-removing step of `clean` and runs
before imputation (the pipeline is literally strip ∘ fill ∘ dedup, so medians
and modes are computed on the deduplicated frame); imputation and text
normalization preserve the row count; consequently
`final_rows = initial_rows − duplicate_rows_found` and
`rows_removed = duplicate_rows_found` for every input table. -/
theorem C7_pipeline_order (t u : Table) :
    (cleanStats t).final_rows =
      (cleanStats t).initial_rows - (cleanStats t).duplicate_rows_found ∧
    (cleanStats t).rows_removed = (cleanStats t).duplicate_rows_found ∧
    (handle_missing_values u).rows.length = u.rows.length ∧
    (standardize_data_types u).rows.length = u.rows.length ∧
    cleanTable t =
      standardize_data_types (handle_missing_values (remove_duplicates t)) := by
  refine ⟨?_, ?_, handle_missing_length u, standardize_length u, rfl⟩
  · exact cleanTable_rows_length t
  · show t.rows.length - (cleanTable t).rows.length = duplicatedCount t.rows
    rw [cleanTable_rows_length]
    have := duplicatedCount_le t.rows
    omega

/-! ### Well-formedness lemmas used for idempotence -/

lemma getD_default_eq {α : Type} (l : List α) (j : Nat) (hj : j < l.length)
    (d1 d2 : α) : l.getD j d1 = l.getD j d2 := by
  rw [getD_eq_get?_getD, getD_eq_get?_getD, List.get?_eq_get hj]
  rfl

lemma rowOk_nil_iff {kinds : List ColKind} : rowOk kinds [] = true ↔ kinds = [] := by
  unfold rowOk
  cases kinds <;> simp [List.zip]

lemma rowOk_cons_iff {k : ColKind} {ks : List ColKind} {c : Cell} {cs : Row} :
    rowOk (k :: ks) (c :: cs) = true ↔
      cellOk k c = true ∧ rowOk ks cs = true := by
  unfold rowOk
  simp only [List.zip_cons_cons, List.all_cons, Bool.and_eq_true,
    decide_eq_true_eq, List.length_cons]
  constructor
  · rintro ⟨h1, h2, h3⟩
    exact ⟨h2, by omega, h3⟩
  · rintro ⟨h1, h2, h3⟩
    exact ⟨by omega, h1, h3⟩

lemma rowOk_iff (kinds : List ColKind) (r : Row) :
    rowOk kinds r = true ↔
      (r.length = kinds.length ∧ ∀ j, j < r.length →
        cellOk (kinds.getD j ColKind.text) (r.getD j none) = true) := by
  induction r generalizing kinds with
  | nil =>
      constructor
      · intro h
        have hk := rowOk_nil_iff.mp h
        subst hk
        exact ⟨rfl, fun j hj => absurd hj (by simp)⟩
      · rintro ⟨h1, -⟩
        have hk : kinds = [] := List.length_eq_zero.mp h1.symm
        subst hk
        rfl
  | cons c cs ih =>
      cases kinds with
      | nil =>
          constructor
          · intro h
            exfalso
            unfold rowOk at h
            simp at h
          · rintro ⟨h1, -⟩
            simp at h1
      | cons k ks =>
          rw [rowOk_cons_iff]
          constructor
          · rintro ⟨h1, h2⟩
            obtain ⟨hlen, hcell⟩ := (ih ks).mp h2
            refine ⟨by simp [hlen], ?_⟩
            intro j hj
            cases j with
            | zero => simpa using h1
            | succ j =>
                simp only [List.getD_cons_succ]
                exact hcell j (by simpa using hj)
          · rintro ⟨h1, h2⟩
            refine ⟨by simpa using h2 0 (by simp),
              (ih ks).mpr ⟨by simpa using h1, ?_⟩⟩
            intro j hj
            have h3 := h2 (j + 1) (by simpa using hj)
            simpa [List.getD_cons_succ] using h3

lemma tableOk_remove_duplicates {t : Table} (h : tableOk t = true) :
    tableOk (remove_duplicates t) = true := by
  refine List.all_eq_true.mpr ?_
  intro r hr
  exact List.all_eq_true.mp h r (mem_dropDuplicates.mp hr)

lemma cellOk_fillCell {kind : ColKind} (cells : List Cell) {c : Cell}
    (hc : cellOk kind c = true) :
    cellOk kind (fillCell (fillValueFor kind cells) c) = true := by
  cases c with
  | some v => exact hc
  | none =>
      show cellOk kind (fillValueFor kind cells) = true
      unfold fillValueFor
      by_cases hg : none ∈ cells
      · rw [if_pos hg]
        cases kind with
        | numeric =>
            cases hm : median (presentNums cells) with
            | none => simp [hm, cellOk]
            | some q => simp [hm, cellOk]
        | text => rfl
      · rw [if_neg hg]
        exact hc

lemma tableOk_handle_missing {t : Table} (h : tableOk t = true) :
    tableOk (handle_missing_values t) = true := by
  unfold handle_missing_values
  by_cases h0 : countMissing t.rows = 0
  · rwa [if_pos h0]
  · rw [if_neg h0]
    refine List.all_eq_true.mpr ?_
    intro r' hr'
    simp only [List.mem_map] at hr'
    obtain ⟨r, hr, rfl⟩ := hr'
    obtain ⟨hlen, hcell⟩ := (rowOk_iff t.kinds r).mp (List.all_eq_true.mp h r hr)
    refine (rowOk_iff t.kinds _).mpr ⟨?_, ?_⟩
    · rw [mapWithIndex, mapWithIndexFrom_length]
      exact hlen
    · intro j hj
      rw [mapWithIndex, mapWithIndexFrom_length] at hj
      rw [mapWithIndex_getD_cell _ r j hj]
      exact cellOk_fillCell _ (hcell j hj)

lemma mem_presentNums {cells : List Cell} {q : ℚ} :
    q ∈ presentNums cells ↔ some (Value.num q) ∈ cells := by
  unfold presentNums
  rw [List.mem_filterMap]
  constructor
  · rintro ⟨c, hc, hcq⟩
    match c with
    | some (Value.num p) =>
        simp only [Option.some_inj] at hcq
        subst hcq
        exact hc
    | some (Value.str s) => cases hcq
    | none => cases hcq
  · intro hmem
    exact ⟨some (Value.num q), hmem, rfl⟩

lemma median_eq_none_iff {xs : List ℚ} : median xs = none ↔ xs = [] := by
  unfold median
  by_cases h : xs.length = 0
  · simp [h, List.length_eq_zero.mp h]
  · rw [if_neg h]
    constructor
    · intro hcontra
      by_cases hp : xs.length % 2 = 1 <;> simp [hp] at hcontra
    · intro hxs
      exact absurd (by simp [hxs]) h

lemma countMissing_handle_missing {t : Table} (hwf : tableOk t = true)
    (hnum : ∀ j, j < t.kinds.length →
      t.kinds.getD j ColKind.text = ColKind.numeric →
      none ∈ colCells t.rows j → presentNums (colCells t.rows j) ≠ []) :
    countMissing (handle_missing_values t).rows = 0 := by
  unfold handle_missing_values
  by_cases h0 : countMissing t.rows = 0
  · rwa [if_pos h0]
  · rw [if_neg h0]
    rw [countMissing_eq_zero]
    intro r' hr' c hc hceq
    subst hceq
    simp only [List.mem_map] at hr'
    obtain ⟨r, hr, rfl⟩ := hr'
    obtain ⟨hlen, -⟩ := (rowOk_iff t.kinds r).mp (List.all_eq_true.mp hwf r hr)
    obtain ⟨j, hj⟩ := List.mem_iff_get?.mp hc
    rw [mapWithIndex, mapWithIndexFrom_get?] at hj
    simp only [Nat.zero_add] at hj
    obtain ⟨cj, hcj, hfc⟩ := Option.map_eq_some'.mp hj
    have hjr : j < r.length := by
      by_contra hge
      rw [List.get?_eq_none.mpr (by omega)] at hcj
      cases hcj
    cases cj with
    | some v => cases hfc
    | none =>
        -- the fill value for column `j` was `none`, impossible
        have hmem : none ∈ colCells t.rows j := by
          rw [mem_colCells]
          refine ⟨r, hr, ?_⟩
          rw [getD_eq_get?_getD, hcj]
          rfl
        have hfv : fillValueFor (t.kinds.getD j ColKind.text)
            (colCells t.rows j) = none := hfc
        unfold fillValueFor at hfv
        rw [if_pos hmem] at hfv
        cases hk : t.kinds.getD j ColKind.text with
        | text => rw [hk] at hfv; cases hfv
        | numeric =>
            rw [hk] at hfv
            have hmed : median (presentNums (colCells t.rows j)) = none := by
              cases hm : median (presentNums (colCells t.rows j)) with
              | none => rfl
              | some q => rw [hm] at hfv; cases hfv
            exact hnum j (by omega) hk hmem (median_eq_none_iff.mp hmed)

lemma cellOk_text_str {v : Value} (h : cellOk ColKind.text (some v) = true) :
    ∃ s, v = Value.str s := by
  cases v with
  | num q => simp [cellOk] at h
  | str s => exact ⟨s, rfl⟩

lemma countMissing_standardize {t : Table} (hwf : tableOk t = true)
    (h0 : countMissing t.rows = 0) :
    countMissing (standardize_data_types t).rows = 0 := by
  rw [countMissing_eq_zero]
  intro r' hr' c hc hceq
  subst hceq
  unfold standardize_data_types at hr'
  simp only [List.mem_map] at hr'
  obtain ⟨r, hr, rfl⟩ := hr'
  obtain ⟨hlen, hcell⟩ := (rowOk_iff t.kinds r).mp (List.all_eq_true.mp hwf r hr)
  obtain ⟨j, hj⟩ := List.mem_iff_get?.mp hc
  rw [mapWithIndex, mapWithIndexFrom_get?] at hj
  simp only [Nat.zero_add] at hj
  obtain ⟨cj, hcj, hfc⟩ := Option.map_eq_some'.mp hj
  have hjr : j < r.length := by
    by_contra hge
    rw [List.get?_eq_none.mpr (by omega)] at hcj
    cases hcj
  have hcjmem : cj ∈ r := List.get?_mem hcj
  have hcjne : ¬ cj = none := countMissing_eq_zero.mp h0 r hr cj hcjmem
  cases cj with
  | none => exact hcjne rfl
  | some v =>
      cases hk : t.kinds.getD j ColKind.numeric with
      | numeric => rw [hk] at hfc; cases hfc
      | text =>
          rw [hk] at hfc
          have hkt : t.kinds.getD j ColKind.text = ColKind.text := by
            rw [getD_default_eq t.kinds j (by omega) ColKind.text ColKind.numeric,
              hk]
          have hvok : cellOk ColKind.text (some v) = true := by
            have h1 := hcell j hjr
            rw [hkt] at h1
            rw [getD_eq_get?_getD, hcj] at h1
            exact h1
          obtain ⟨s, rfl⟩ := cellOk_text_str hvok
          cases hfc

/-- C8 counterexample: for the single text column `["x", missing]` the first
pass finds no duplicate rows, but imputation fills the missing cell with the
mode `"x"`, making the two rows equal — so the second pass finds 1 duplicate
row and removes it, refuting the claimed idempotence of `clean`. -/
theorem C8_counterexample :
    duplicatedCount (cleanTable ⟨[ColKind.text],
        [[some (Value.str "x")], [none]]⟩).rows = 1 ∧
    duplicatedCount ([[some (Value.str "x")], [none]] : List Row) = 0 ∧
    (cleanStats (cleanTable ⟨[ColKind.text],
        [[some (Value.str "x")], [none]]⟩)).duplicate_rows_found = 1 ∧
    (cleanStats (cleanTable ⟨[ColKind.text],
        [[some (Value.str "x")], [none]]⟩)).rows_removed = 1 := by
  refine ⟨by decide, by decide, by decide, by decide⟩

/-- C8 (amended): a second `clean` pass on `clean(T).cleaned_table` finds
zero duplicate rows, zero missing values and removes zero rows, provided
(i) `T` is well-formed, (ii) every numeric column of `T` that has an absent
cell also has a present value (an all-absent numeric column stays absent:
`fillna(NaN)` is a no-op), and (iii) imputation and trimming did not collapse
two distinct rows of the first pass's output into equal ones (otherwise the
second pass finds and removes those new duplicates). -/
theorem C8_idempotence (t : Table) (hwf : tableOk t = true)
    (hnum : ∀ j, j < t.kinds.length →
      t.kinds.getD j ColKind.text = ColKind.numeric →
      none ∈ colCells t.rows j → presentNums (colCells t.rows j) ≠ [])
    (hnodup : (cleanTable t).rows.Nodup) :
    (cleanStats (cleanTable t)).duplicate_rows_found = 0 ∧
    (cleanStats (cleanTable t)).missing_values_found = 0 ∧
    (cleanStats (cleanTable t)).rows_removed = 0 := by
  have hdup0 : duplicatedCount (cleanTable t).rows = 0 :=
    duplicatedCount_eq_zero_of_nodup hnodup
  have hwf1 : tableOk (remove_duplicates t) = true := tableOk_remove_duplicates hwf
  have hnum1 : ∀ j, j < (remove_duplicates t).kinds.length →
      (remove_duplicates t).kinds.getD j ColKind.text = ColKind.numeric →
      none ∈ colCells (remove_duplicates t).rows j →
      presentNums (colCells (remove_duplicates t).rows j) ≠ [] := by
    intro j hj hk hmem
    have hmem0 : none ∈ colCells t.rows j := by
      rw [mem_colCells] at hmem ⊢
      obtain ⟨r, hr, hrc⟩ := hmem
      exact ⟨r, mem_dropDuplicates.mp hr, hrc⟩
    have hne0 : presentNums (colCells t.rows j) ≠ [] := hnum j hj hk hmem0
    obtain ⟨q, hq⟩ := List.exists_mem_of_ne_nil _ hne0
    have hq1 : some (Value.num q) ∈ colCells (remove_duplicates t).rows j := by
      rw [mem_colCells]
      have := mem_presentNums.mp hq
      rw [mem_colCells] at this
      obtain ⟨r, hr, hrc⟩ := this
      exact ⟨r, mem_dropDuplicates.mpr hr, hrc⟩
    exact List.ne_nil_of_mem (mem_presentNums.mpr hq1)
  have h0fill : countMissing
      (handle_missing_values (remove_duplicates t)).rows = 0 :=
    countMissing_handle_missing hwf1 hnum1
  have hwf2 : tableOk (handle_missing_values (remove_duplicates t)) = true :=
    tableOk_handle_missing hwf1
  have hmiss0 : countMissing (cleanTable t).rows = 0 :=
    countMissing_standardize hwf2 h0fill
  refine ⟨hdup0, hmiss0, ?_⟩
  show (cleanTable t).rows.length -
    (cleanTable (cleanTable t)).rows.length = 0
  rw [cleanTable_rows_length (cleanTable t), hdup0]
  omega

/-- Witness for C8: a well-formed two-column text table whose single missing
cell is imputed without creating a duplicate row. -/
theorem C8_idempotence_witness :
    (cleanStats (cleanTable ⟨[ColKind.text, ColKind.text],
        [[some (Value.str "a"), some (Value.str "b")],
         [none, some (Value.str "c")]]⟩)).duplicate_rows_found = 0 ∧
    (cleanStats (cleanTable ⟨[ColKind.text, ColKind.text],
        [[some (Value.str "a"), some (Value.str "b")],
         [none, some (Value.str "c")]]⟩)).missing_values_found = 0 ∧
    (cleanStats (cleanTable ⟨[ColKind.text, ColKind.text],
        [[some (Value.str "a"), some (Value.str "b")],
         [none, some (Value.str "c")]]⟩)).rows_removed = 0 :=
  C8_idempotence ⟨[ColKind.text, ColKind.text],
      [[some (Value.str "a"), some (Value.str "b")],
       [none, some (Value.str "c")]]⟩
    (by decide) (by decide) (by decide)

/-- C9: if the organize directory does not exist (or is not a directory), the
organizer reports an error and returns the empty statistics record with the
filesystem untouched and no move attempted; if the clean input path does not
exist or is not a file, the cleaner returns the empty record and performs no
table transformation.  The empty value is the sentinel for total failure of
either component. -/
theorem C9_input_validation (extMap : List (String × String)) (maxSuffix : Nat)
    (fs : List FsPath) (dirs : List String) (d : String) (hd : d ∉ dirs) :
    organize_directory extMap maxSuffix fs dirs d = ⟨fs, dirs, [], []⟩ ∧
    clean_csv none = none := by
  refine ⟨?_, rfl⟩
  unfold organize_directory
  rw [if_neg hd]

/-- Witness for C9: organizing a missing directory leaves the snapshot
unchanged with empty statistics. -/
theorem C9_input_validation_witness :
    organize_directory [(".txt", "documents")] 3 [⟨"d", "a.txt"⟩] [] "d" =
      ⟨[⟨"d", "a.txt"⟩], [], [], []⟩ ∧
    clean_csv none = none :=
  C9_input_validation [(".txt", "documents")] 3 [⟨"d", "a.txt"⟩] [] "d"
    (by decide)

end FileAutomation
